import Mathlib

/-!
Verification of the agentic PR-reviewer pipeline.

This file embeds the review pipeline of the repository in Lean:

* the diff segmenter (src/app/services/chunker.py),
* the agent router (src/app/services/planner.py),
* the result aggregator and executor (src/app/services/review_agent.py),
* the review-scope decision (src/app/services/event_handler.py together with
  src/app/services/audit_logger.py and src/app/services/github_client.py),
* the configuration CRUD boundary (src/app/api/config_routes.py),

and proves or refutes the stated behavioural properties of these components.

Python strings are modelled as lists of characters (PyStr).  The regular
expressions used by the source are all of a restricted shape (zero-width
lookahead splits, anchored literal searches, a single lazy capture), and are
embedded as the corresponding character-list scans, specialised to the way
the source applies them.  Python's str.strip is modelled over the six ASCII
whitespace characters.
-/

set_option maxRecDepth 100000

/-! ### Python string primitives -/

abbrev PyStr := List Char

/-- The whitespace characters recognised by str.strip. -/
def isPySpace (c : Char) : Bool :=
  c = ' ' ∨ c = '\t' ∨ c = '\n' ∨ c = '\r' ∨ c = '\x0b' ∨ c = '\x0c'

/-- Python str.strip: drop whitespace from both ends. -/
def pyStrip (s : PyStr) : PyStr :=
  ((s.dropWhile isPySpace).reverse.dropWhile isPySpace).reverse

/-- Worker for splitBefore: cur is the current piece, reversed. -/
def splitBeforeGo (pat : PyStr) (cur : PyStr) : PyStr → List PyStr
  | [] => [cur.reverse]
  | c :: rest =>
      if pat.isPrefixOf (c :: rest) then
        cur.reverse :: splitBeforeGo pat [c] rest
      else splitBeforeGo pat (c :: cur) rest

/-- re.split with a zero-width lookahead: cut the string immediately before
every occurrence of pat (scanning left to right, resuming one character
after each cut, exactly as re.split does for zero-width matches). -/
def splitBefore (pat s : PyStr) : List PyStr := splitBeforeGo pat [] s

/-! ### chunker.py -/

/-- MAX_CHUNK_CHARS from chunker.py. -/
def MAX_CHUNK_CHARS : Nat := 4000

/-- Substring test: does pat occur contiguously inside s? -/
def containsSub (pat : PyStr) : PyStr → Bool
  | [] => pat.isEmpty
  | c :: rest => pat.isPrefixOf (c :: rest) || containsSub pat rest

/-- IGNORE_PATTERNS of chunker.py, as a predicate on extension-bearing file
paths.  Each source pattern is an re.search of a literal (with dots escaped)
optionally anchored by a dollar; on the newline-free paths produced by the
file-header capture below, the dollar anchor is exactly a suffix test, and
the unanchored patterns are substring tests.  The migrations pattern needs
"migrations/" to occur and the path to end in ".py"; since "migrations/"
cannot overlap a final ".py", that is the stated conjunction. -/
def _should_skip_file (fp : PyStr) : Bool :=
  ".lock".data.isSuffixOf fp ∨
  ".min.js".data.isSuffixOf fp ∨
  ".min.css".data.isSuffixOf fp ∨
  "package-lock.json".data.isSuffixOf fp ∨
  "yarn.lock".data.isSuffixOf fp ∨
  "poetry.lock".data.isSuffixOf fp ∨
  ".pyc".data.isSuffixOf fp ∨
  ".pem".data.isSuffixOf fp ∨
  ".png".data.isSuffixOf fp ∨
  ".jpg".data.isSuffixOf fp ∨
  ".jpeg".data.isSuffixOf fp ∨
  ".gif".data.isSuffixOf fp ∨
  ".svg".data.isSuffixOf fp ∨
  ".pdf".data.isSuffixOf fp ∨
  (containsSub "migrations/".data fp ∧ ".py".data.isSuffixOf fp) ∨
  containsSub "__pycache__/".data fp ∨
  "trigger.txt".data.isSuffixOf fp ∨
  ".txt".data.isSuffixOf fp

/-- The lazy capture of the header regex: the shortest nonempty newline-free
prefix of the remainder that is followed by the literal " b/".  acc holds
the characters captured so far. -/
def extractFindCap (acc : PyStr) : PyStr → Option PyStr
  | [] => none
  | c :: rest =>
      if c = '\n' then none
      else if " b/".data.isPrefixOf rest then some (acc ++ [c])
      else extractFindCap (acc ++ [c]) rest

/-- The file path extracted by re.search of the pattern
diff --git a/(.+?) b/ from one piece of the file split.  A piece of the
split other than the dropped first one contains "diff --git " only at
position 0, so the search can only succeed at position 0. -/
def extract_filepath (file_diff : PyStr) : Option PyStr :=
  if "diff --git a/".data.isPrefixOf file_diff then
    extractFindCap [] (file_diff.drop "diff --git a/".length)
  else none

/-- The loop body of _split_diff_by_file for one piece of the split: skip
a piece that is whitespace-only, has no parseable header, or whose path
matches an ignore pattern; keep (filepath, piece) otherwise. -/
def fileEntry (fd : PyStr) : Option (PyStr × PyStr) :=
  if pyStrip fd = [] then none
  else
    match extract_filepath fd with
    | none => none
    | some fp => if _should_skip_file fp then none else some (fp, fd)

/-- _split_diff_by_file of chunker.py: cut the stripped diff before each
"diff --git " and keep the retained (filepath, file_diff) pairs. -/
def _split_diff_by_file (diff : PyStr) : List (PyStr × PyStr) :=
  (splitBefore "diff --git ".data (pyStrip diff)).filterMap fileEntry

/-- The greedy hunk-packing loop of _split_large_file_diff: cur is the chunk
being assembled (it always begins with header); a hunk that would push cur
past MAX_CHUNK_CHARS closes cur (kept only when it strips nonempty) and
starts a fresh chunk header ++ hunk. -/
def packHunks (header : PyStr) (cur : PyStr) : List PyStr → List PyStr
  | [] => if pyStrip cur = [] then [] else [cur]
  | h :: rest =>
      if MAX_CHUNK_CHARS < cur.length + h.length then
        (if pyStrip cur = [] then [] else [cur]) ++ packHunks header (header ++ h) rest
      else packHunks header (cur ++ h) rest

/-- _split_large_file_diff of chunker.py: cut the file diff before each
"@@"; the first piece is the file header, the rest are hunks, greedily
packed. -/
def _split_large_file_diff (file_diff : PyStr) : List PyStr :=
  match splitBefore "@@".data file_diff with
  | [] => []
  | header :: hunks => packHunks header header hunks

/-- The work-unit record produced by chunk_diff. -/
structure Chunk where
  chunk_id : PyStr
  file : PyStr
  content : PyStr
  size : Nat
deriving DecidableEq, Repr

/-- Decimal rendering of a chunk index, as Python str(int). -/
def natChars (n : Nat) : PyStr := (toString n).data

/-- The chunks chunk_diff emits for one retained (filepath, file_diff)
pair: the whole file diff when it fits, otherwise the enumerated output of
_split_large_file_diff. -/
def unitsOf (p : PyStr × PyStr) : List Chunk :=
  if p.2.length ≤ MAX_CHUNK_CHARS then
    [⟨p.1 ++ ':' :: natChars 0, p.1, p.2, p.2.length⟩]
  else
    (_split_large_file_diff p.2).enum.map fun q =>
      ⟨p.1 ++ ':' :: natChars q.1, p.1, q.2, q.2.length⟩

/-- chunk_diff of chunker.py. -/
def chunk_diff (diff : PyStr) : List Chunk :=
  (_split_diff_by_file diff).flatMap unitsOf

/-! ### planner.py -/

def SECURITY_EXTENSIONS : List PyStr :=
  [".py", ".js", ".ts", ".go", ".java", ".rb", ".php", ".env", ".yaml",
   ".yml", ".json", ".toml"].map String.data

def PERFORMANCE_EXTENSIONS : List PyStr :=
  [".py", ".js", ".ts", ".go", ".java", ".rb", ".sql"].map String.data

def TESTS_EXTENSIONS : List PyStr :=
  [".py", ".js", ".ts", ".go", ".java", ".rb"].map String.data

def TEST_FILE_PATTERNS : List PyStr :=
  ["test_", "_test", "/tests/", "/test/", "spec."].map String.data

/-- _get_extension of planner.py: "." plus the lower-cased text after the
last dot, or empty when there is no dot. -/
def _get_extension (filepath : PyStr) : PyStr :=
  if '.' ∈ filepath then
    '.' :: ((filepath.reverse.takeWhile (fun c => c ≠ '.')).reverse.map Char.toLower)
  else []

def _is_test_file (filepath : PyStr) : Bool :=
  TEST_FILE_PATTERNS.any (fun p => containsSub p filepath)

/-- The four channel lists built by plan_agents. -/
structure Plan where
  security : List Chunk
  code_quality : List Chunk
  performance : List Chunk
  tests : List Chunk
deriving DecidableEq, Repr

/-- One iteration of the plan_agents loop, in source order: code_quality,
then security, then performance, then tests. -/
def planStep (p : Plan) (c : Chunk) : Plan :=
  let ext := _get_extension c.file
  let is_test := _is_test_file c.file
  let p1 :=
    if ext ∈ SECURITY_EXTENSIONS ∨ ext ∈ PERFORMANCE_EXTENSIONS then
      { p with code_quality := p.code_quality ++ [c] }
    else p
  let p2 :=
    if ext ∈ SECURITY_EXTENSIONS then
      { p1 with security := p1.security ++ [c] }
    else p1
  let p3 :=
    if ext ∈ PERFORMANCE_EXTENSIONS ∧ is_test = false then
      { p2 with performance := p2.performance ++ [c] }
    else p2
  if ext ∈ TESTS_EXTENSIONS ∧ is_test = false then
    { p3 with tests := p3.tests ++ [c] }
  else p3

/-- plan_agents of planner.py.  NOTE: the source function takes only the
chunk list; it has no parameter for an enabled-channel set, although its
sole caller review_diff passes one (active_agents=cfg.get("agents")). -/
def plan_agents (chunks : List Chunk) : Plan :=
  chunks.foldl planStep ⟨[], [], [], []⟩

/-! ### review_agent.py: aggregation -/

/-- A finding issue dict, restricted to the keys the aggregator reads.  A
dict missing "title" or "file" behaves as the empty string (the source reads
them with .get(..., "")); a dict missing "severity" behaves as "low" in
every read (.get("severity", "low") for risk and sorting, and a missing
severity fails the high/medium checklist test exactly as "low" does), so a
missing severity is embedded as "low". -/
structure Finding where
  title : String
  file : String
  severity : String
deriving DecidableEq, Repr

/-- One raw agent result dict: the "agent" key (missing embeds as "unknown",
the default the source uses) and the "issues" list (missing embeds as []). -/
structure RawResult where
  agent : String
  issues : List Finding
deriving DecidableEq, Repr

/-- The dict _aggregate returns. -/
structure ReviewResult where
  summary : String
  risk : String
  issues : List Finding
  checklist : List String
  chunks_count : Nat
deriving DecidableEq, Repr

def MAX_TOTAL_ISSUES : Nat := 10

/-- risk_order.get(s, 0) for risk_order = low 0, medium 1, high 2. -/
def riskOrderGet (s : String) : Nat :=
  if s = "low" then 0 else if s = "medium" then 1 else if s = "high" then 2 else 0

/-- One iteration of the max-risk loop of _aggregate. -/
def maxRiskStep (mx : String) (i : Finding) : String :=
  if riskOrderGet mx < riskOrderGet i.severity then i.severity else mx

/-- severity_order.get(s, 2) for severity_order = high 0, medium 1, low 2. -/
def severityOrderGet (s : String) : Nat :=
  if s = "high" then 0 else if s = "medium" then 1 else 2

/-- The dedup loop of _aggregate: seen is the set of (title, file) keys
already encountered; the first occurrence of each key is kept. -/
def dedupGo (seen : List (String × String)) : List Finding → List Finding
  | [] => []
  | i :: rest =>
      if (i.title, i.file) ∈ seen then dedupGo seen rest
      else i :: dedupGo ((i.title, i.file) :: seen) rest

def dedupIssues (l : List Finding) : List Finding := dedupGo [] l

/-- Stable insertion for the severity sort: a new element goes in front of
the first element whose key is not smaller, so that elements with equal
keys keep their original relative order.  list.sort of Python is a stable
sort by severityOrderGet; any stable sort computes the same list, and this
insertion sort is the embedding of it. -/
def insertIssue (a : Finding) : List Finding → List Finding
  | [] => [a]
  | b :: l =>
      if severityOrderGet a.severity ≤ severityOrderGet b.severity then a :: b :: l
      else b :: insertIssue a l

/-- deduped.sort(key=lambda x: severity_order.get(x.get("severity","low"), 2)). -/
def sortIssues : List Finding → List Finding
  | [] => []
  | a :: l => insertIssue a (sortIssues l)

/-- agent_counts[agent] = agent_counts.get(agent, 0) + k on a dict embedded
as an in-order association list. -/
def bump : List (String × Nat) → String → Nat → List (String × Nat)
  | [], a, k => [(a, k)]
  | (b, n) :: rest, a, k =>
      if b = a then (b, n + k) :: rest else (b, n) :: bump rest a k

/-- The agent_counts loop of _aggregate, over the raw results. -/
def agentCounts (rs : List RawResult) : List (String × Nat) :=
  rs.foldl (fun cs r => bump cs r.agent r.issues.length) []

/-- agent_counts.get(a, 0). -/
def countsGet : List (String × Nat) → String → Nat
  | [], _ => 0
  | (b, n) :: rest, a => if b = a then n else countsGet rest a

/-- The summary sentence of _aggregate, built from the per-agent counts. -/
def mkSummary (cs : List (String × Nat)) : String :=
  let parts : List String :=
    (if countsGet cs "security" ≠ 0 then
       [toString (countsGet cs "security") ++ " security issue(s)"] else []) ++
    (if countsGet cs "code_quality" ≠ 0 then
       [toString (countsGet cs "code_quality") ++ " code quality issue(s)"] else []) ++
    (if countsGet cs "performance" ≠ 0 then
       [toString (countsGet cs "performance") ++ " performance issue(s)"] else []) ++
    (if countsGet cs "tests" ≠ 0 then
       [toString (countsGet cs "tests") ++ " test coverage gap(s)"] else [])
  if parts = [] then "No significant issues found."
  else "Found " ++ String.intercalate ", " parts ++ "."

/-- _aggregate of review_agent.py.  The source interleaves the flatten and
the max-risk fold in one loop over results then issues; flattening first
and folding over the flattened list visits the same issues in the same
order. -/
def _aggregate (all_results : List RawResult) (chunks_count : Nat)
    (max_issues : Nat := MAX_TOTAL_ISSUES) : ReviewResult :=
  let all_issues := all_results.flatMap (·.issues)
  let max_risk := all_issues.foldl maxRiskStep "low"
  let deduped := (sortIssues (dedupIssues all_issues)).take max_issues
  let checklist := deduped.filterMap fun i =>
    if i.severity = "high" ∨ i.severity = "medium" then some ("Fix: " ++ i.title)
    else none
  { summary := mkSummary (agentCounts all_results)
    risk := max_risk
    issues := deduped
    checklist := checklist
    chunks_count := chunks_count }

/-! ### review_agent.py: executor (_run_agent / review_diff task fan-out)

_run_agent performs an external chat-completion call and parses the reply;
the whole body sits in one try/except whose handler returns
the dict with the task's agent name and an empty issues list.  The external
call and parse are modelled by an oracle giving, per task position, either
the parsed result dict (some r) or none for any failure in the try block
(transport error, malformed reply, non-JSON payload).  asyncio.gather
returns results in task-submission order, which the map below preserves. -/

structure ReviewTask where
  channel : String
  unit : Chunk
deriving DecidableEq, Repr

/-- The outcome of _run_agent for one task, given the oracle's verdict for
that task: the parsed result on success, the empty-findings fallback result
on any failure. -/
def _run_agent (outcome : Option RawResult) (agent_name : String) : RawResult :=
  match outcome with
  | some r => r
  | none => { agent := agent_name, issues := [] }

/-- The executor fan-out of review_diff: every task is submitted, and the
results come back in task-submission order. -/
def executeTasks (oracle : Nat → Option RawResult) (tasks : List ReviewTask) :
    List RawResult :=
  tasks.enum.map fun q => _run_agent (oracle q.1) q.2.channel

/-! ### event_handler.py / audit_logger.py: review-scope decision -/

/-- The fields of a review_runs document that the scope decision reads. -/
structure RunRecord where
  status : String
  commit_sha : Option String
deriving DecidableEq, Repr

/-- get_last_reviewed_sha of audit_logger.py.  The MongoDB find_one with
sort=[("ended_at", -1)] returns the first match in descending ended_at
order; runs is the collection already in that order, so find_one is find?.
The source then requires the document's commit_sha to be truthy (present
and nonempty). -/
def get_last_reviewed_sha (runs : List RunRecord) : Option String :=
  match runs.find? (fun r => r.status = "success") with
  | some doc =>
      match doc.commit_sha with
      | some s => if s = "" then none else some s
      | none => none
  | none => none

/-- Which diff the orchestrator requests from the source-hosting API. -/
inductive DiffRequest where
  | commitDiff (base head : String)
  | prDiff
deriving DecidableEq, Repr

/-- The scope decision of handle_pull_request_event: on a synchronize
action with a truthy head SHA, an incremental diff between the last
successfully reviewed SHA and the head is requested when the former exists
and differs from the head; every other handled trigger requests the full
PR diff.  Returns (review_mode, requested diff). -/
def decideScope (action : String) (head_sha : Option String)
    (runs : List RunRecord) : String × DiffRequest :=
  match head_sha with
  | some h =>
      if action = "synchronize" ∧ h ≠ "" then
        match get_last_reviewed_sha runs with
        | some last =>
            if last ≠ h then ("incremental", .commitDiff last h)
            else ("full", .prDiff)
        | none => ("full", .prDiff)
      else ("full", .prDiff)
  | none => ("full", .prDiff)

/-- The URL path get_commit_diff requests, for repo owner/name and the two
SHAs: /repos/{repo}/compare/{base}...{head}. -/
def commitDiffPath (repo base head : String) : String :=
  "/repos/" ++ repo ++ "/compare/" ++ base ++ "..." ++ head

/-! ### config_routes.py: configuration set boundary -/

/-- The RepoConfigUpdate request body (all fields optional). -/
structure RepoConfigUpdate where
  max_issues : Option Int
  agents : Option (List String)
  min_severity : Option String
  ignore_patterns : Option (List String)
deriving DecidableEq, Repr

def validAgents : List String := ["security", "code_quality", "performance", "tests"]

/-- set_config of config_routes.py: reject an empty update, an agents list
with entries outside validAgents, or a min_severity outside low/medium/high;
otherwise upsert.  upsert_repo_config filters updates to the allowed keys,
which are exactly the four body fields, so the written update is the body
itself; an HTTPException is raised before any store write, so the error
branch writes nothing. -/
def set_config (body : RepoConfigUpdate) : Except String RepoConfigUpdate :=
  if body.max_issues = none ∧ body.agents = none ∧ body.min_severity = none ∧
      body.ignore_patterns = none then
    Except.error "No valid fields provided"
  else
    match body.agents with
    | some ags =>
        if ¬ (ags.all (· ∈ validAgents)) then Except.error "Invalid agents"
        else
          match body.min_severity with
          | some s =>
              if ¬ (s = "low" ∨ s = "medium" ∨ s = "high") then
                Except.error "min_severity must be low, medium, or high"
              else Except.ok body
          | none => Except.ok body
    | none =>
        match body.min_severity with
        | some s =>
            if ¬ (s = "low" ∨ s = "medium" ∨ s = "high") then
              Except.error "min_severity must be low, medium, or high"
            else Except.ok body
        | none => Except.ok body

/-! ### Definitions written from the specification text

These are deliberately written from the wording of the specification (not
from the source) and are compared with the embedded source functions in the
refinement theorems below. -/

/-- The (title, file) deduplication key of a finding. -/
def keyOf (f : Finding) : String × String := (f.title, f.file)

/-- Spec wording: risk is the maximum severity present (ordering
low < medium < high), or low when there are no findings. -/
def specMaxSeverity (l : List Finding) : String :=
  if "high" ∈ l.map (·.severity) then "high"
  else if "medium" ∈ l.map (·.severity) then "medium"
  else "low"

/-- Spec wording: remove every finding whose (title, file) pair equals that
of an earlier finding; earlier is the list of findings already passed
(kept or removed). -/
def keepFirstAux (earlier : List Finding) : List Finding → List Finding
  | [] => []
  | x :: rest =>
      if ∃ y ∈ earlier, keyOf y = keyOf x then keepFirstAux (earlier ++ [x]) rest
      else x :: keepFirstAux (earlier ++ [x]) rest

def keepFirstSpec (l : List Finding) : List Finding := keepFirstAux [] l

/-- Spec wording: severity rank for the descending sort, high above medium
above low. -/
def descRank (s : String) : Nat :=
  if s = "high" then 2 else if s = "medium" then 1 else 0

/-- Stable descending insertion: x goes in front of the first element whose
rank does not exceed the rank of x, so equal ranks keep submission order. -/
def insertDesc (a : Finding) : List Finding → List Finding
  | [] => [a]
  | b :: l =>
      if descRank b.severity ≤ descRank a.severity then a :: b :: l
      else b :: insertDesc a l

/-- Spec wording: stably sort by severity descending. -/
def sortDescSpec : List Finding → List Finding
  | [] => []
  | a :: l => insertDesc a (sortDescSpec l)

/-- The count of findings a channel reported, over the raw results. -/
def countChannel (rs : List RawResult) (a : String) : Nat :=
  ((rs.filter (fun r => r.agent = a)).map (fun r => r.issues.length)).sum

/-- The summary sentence described by the per-channel raw counts. -/
def specSummary (rs : List RawResult) : String :=
  let parts : List String :=
    (if countChannel rs "security" ≠ 0 then
       [toString (countChannel rs "security") ++ " security issue(s)"] else []) ++
    (if countChannel rs "code_quality" ≠ 0 then
       [toString (countChannel rs "code_quality") ++ " code quality issue(s)"] else []) ++
    (if countChannel rs "performance" ≠ 0 then
       [toString (countChannel rs "performance") ++ " performance issue(s)"] else []) ++
    (if countChannel rs "tests" ≠ 0 then
       [toString (countChannel rs "tests") ++ " test coverage gap(s)"] else [])
  if parts = [] then "No significant issues found."
  else "Found " ++ String.intercalate ", " parts ++ "."

/-- The review-result dict fed back into _aggregate as one raw result, for
the idempotence property: the dict has an "issues" key but no "agent" key,
so the aggregator reads its agent as the default "unknown". -/
def asRaw (r : ReviewResult) : RawResult := { agent := "unknown", issues := r.issues }

/-- The unit content is the file header of fd followed by exactly one of
the hunks of fd (the exception clause of the size claim, as stated). -/
def headerHunkFormStrict (fd content : PyStr) : Prop :=
  ∃ h ∈ (splitBefore "@@".data fd).tail,
    content = (splitBefore "@@".data fd).headD [] ++ h

/-- The unit content is the file header of fd followed by at most one hunk
of fd (the exception clause needed by the code: a fragment with no hunk
boundary is emitted as the bare header). -/
def headerAtMostOneHunkForm (fd content : PyStr) : Prop :=
  content = (splitBefore "@@".data fd).headD [] ∨ headerHunkFormStrict fd content

/-- The size claim exactly as stated: every unit fits within
MAX_CHUNK_CHARS, except a unit that is one file header plus one hunk. -/
def chunkSizeClaim (diff : PyStr) : Prop :=
  ∀ c ∈ chunk_diff diff,
    c.size ≤ MAX_CHUNK_CHARS ∨
    ∃ p ∈ _split_diff_by_file diff, c.file = p.1 ∧ headerHunkFormStrict p.2 c.content

instance (fd content : PyStr) : Decidable (headerHunkFormStrict fd content) := by
  unfold headerHunkFormStrict
  exact inferInstance

instance (fd content : PyStr) : Decidable (headerAtMostOneHunkForm fd content) := by
  unfold headerAtMostOneHunkForm
  exact inferInstance

instance (diff : PyStr) : Decidable (chunkSizeClaim diff) := by
  unfold chunkSizeClaim
  exact inferInstance

/-! ### Concrete inputs used by counterexamples and witnesses -/

/-- A diff with a single retained file whose fragment has no "@@" hunk
boundary at all and is longer than MAX_CHUNK_CHARS: the chunker emits it
whole, as one unit that is a bare header with no hunk. -/
def bigHeaderDiff : PyStr := "diff --git a/x.py b/x.py\n".data ++ List.replicate 4000 'A'

/-- A small Python-file work unit. -/
def pyChunk : Chunk :=
  { chunk_id := "a.py:0".data, file := "a.py".data, content := "+x = 1\n".data, size := 7 }

/-- Two same-key findings with different severities, the low one first. -/
def dupSevResults : List RawResult :=
  [{ agent := "security",
     issues := [{ title := "T", file := "f.py", severity := "low" },
                { title := "T", file := "f.py", severity := "high" }] }]

/-- One already-deduplicated, already-capped result set. -/
def oneIssueResults : List RawResult :=
  [{ agent := "security",
     issues := [{ title := "T", file := "f.py", severity := "high" }] }]

/-- A configuration update whose only field is max_issues = 0. -/
def zeroMaxBody : RepoConfigUpdate :=
  { max_issues := some 0, agents := none, min_severity := none, ignore_patterns := none }

/-- A configuration update carrying an unknown agent name. -/
def badAgentsBody : RepoConfigUpdate :=
  { max_issues := none, agents := some ["security", "linting"], min_severity := none,
    ignore_patterns := none }

/-- An audit collection (already in descending ended_at order) whose most
recent successful run reviewed commit abc123. -/
def sampleRuns : List RunRecord :=
  [{ status := "failed", commit_sha := some "fff000" },
   { status := "success", commit_sha := some "abc123" },
   { status := "success", commit_sha := some "9999aa" }]

/-- A small two-file diff: one reviewable Python file with one hunk, one
ignored lock file. -/
def sampleDiff : PyStr :=
  ("diff --git a/a.py b/a.py\n@@ -1 +1 @@\n-x\n+y\n" ++
   "diff --git a/yarn.lock b/yarn.lock\n@@ -1 +1 @@\n-p\n+q\n").data

/-- One review task on the sample Python unit. -/
def sampleTasks : List ReviewTask :=
  [{ channel := "security", unit := pyChunk }, { channel := "tests", unit := pyChunk }]

/-! ### Lemmas about the string primitives -/

theorem splitBeforeGo_flatten (pat : PyStr) :
    ∀ (s cur : PyStr), (splitBeforeGo pat cur s).flatten = cur.reverse ++ s := by
  intro s
  induction s with
  | nil => intro cur; simp [splitBeforeGo]
  | cons c rest ih =>
      intro cur
      by_cases h : pat.isPrefixOf (c :: rest) = true
      · simp [splitBeforeGo, h, ih]
      · simp [splitBeforeGo, h, ih]

theorem splitBefore_flatten (pat s : PyStr) : (splitBefore pat s).flatten = s := by
  simp [splitBefore, splitBeforeGo_flatten]

theorem splitBeforeGo_first (pat : PyStr) :
    ∀ (s cur : PyStr), ∃ t rest, splitBeforeGo pat cur s = (cur.reverse ++ t) :: rest := by
  intro s
  induction s with
  | nil => intro cur; exact ⟨[], [], by simp [splitBeforeGo]⟩
  | cons c rest ih =>
      intro cur
      by_cases h : pat.isPrefixOf (c :: rest) = true
      · exact ⟨[], splitBeforeGo pat [c] rest, by simp [splitBeforeGo, h]⟩
      · obtain ⟨t, r, ht⟩ := ih (c :: cur)
        refine ⟨c :: t, r, ?_⟩
        simp only [splitBeforeGo, h, if_false, ht]
        simp

theorem splitBefore_ne_nil (pat s : PyStr) : splitBefore pat s ≠ [] := by
  obtain ⟨t, r, h⟩ := splitBeforeGo_first pat s []
  simp [splitBefore, h]

theorem splitBefore_head_append (pat s : PyStr) :
    (splitBefore pat s).headD [] ++ ((splitBefore pat s).tail).flatten = s := by
  obtain ⟨t, r, h⟩ := splitBeforeGo_first pat s []
  have hf := splitBefore_flatten pat s
  simp only [splitBefore] at *
  rw [h] at hf ⊢
  simpa using hf

theorem splitBeforeGo_tail_head (c0 : Char) (pat' : PyStr) :
    ∀ (s cur : PyStr), ∀ p ∈ (splitBeforeGo (c0 :: pat') cur s).tail, ∃ t, p = c0 :: t := by
  intro s
  induction s with
  | nil => intro cur p hp; simp [splitBeforeGo] at hp
  | cons c rest ih =>
      intro cur p hp
      by_cases h : (c0 :: pat').isPrefixOf (c :: rest) = true
      · simp only [splitBeforeGo, h, if_true, List.tail_cons] at hp
        have hc : c0 = c := by
          simp [List.isPrefixOf] at h
          exact h.1
        obtain ⟨t, r, hfirst⟩ := splitBeforeGo_first (c0 :: pat') rest [c]
        rw [hfirst] at hp
        rcases List.mem_cons.mp hp with h1 | h2
        · exact ⟨t, by simpa [hc] using h1⟩
        · have := ih [c]
          rw [hfirst] at this
          exact this p (by simpa using h2)
      · simp only [splitBeforeGo, h, if_false] at hp
        exact ih (c :: cur) p hp

theorem splitBefore_tail_head (c0 : Char) (pat' s : PyStr) :
    ∀ p ∈ (splitBefore (c0 :: pat') s).tail, ∃ t, p = c0 :: t :=
  splitBeforeGo_tail_head c0 pat' s []

theorem pyStrip_eq_nil_all_space (l : PyStr) (h : pyStrip l = []) :
    ∀ c ∈ l, isPySpace c = true := by
  intro c hc
  have h1 : (l.dropWhile isPySpace).reverse.dropWhile isPySpace = [] := by
    have := congrArg List.reverse h
    simpa [pyStrip] using this
  have h2 : ∀ a ∈ (l.dropWhile isPySpace).reverse, isPySpace a = true :=
    fun a ha => List.dropWhile_eq_nil_iff.mp h1 a ha
  have h3 : ∀ a ∈ l.dropWhile isPySpace, isPySpace a = true :=
    fun a ha => h2 a (List.mem_reverse.mpr ha)
  have hsplit : l.takeWhile isPySpace ++ l.dropWhile isPySpace = l :=
    List.takeWhile_append_dropWhile isPySpace l
  rw [← hsplit] at hc
  rcases List.mem_append.mp hc with h4 | h4
  · exact List.mem_takeWhile_imp h4
  · exact h3 c h4

theorem pyStrip_ne_nil (l : PyStr) (c : Char) (hc : c ∈ l) (hs : isPySpace c = false) :
    pyStrip l ≠ [] := by
  intro h
  have := pyStrip_eq_nil_all_space l h c hc
  rw [hs] at this
  exact Bool.false_ne_true this

/-! ### Lemmas about the hunk packer -/

theorem packHunks_mem (header : PyStr) :
    ∀ (hunks : List PyStr) (cur x : PyStr), x ∈ packHunks header cur hunks →
      x.length ≤ MAX_CHUNK_CHARS ∨ x = cur ∨ ∃ h ∈ hunks, x = header ++ h := by
  intro hunks
  induction hunks with
  | nil =>
      intro cur x hx
      unfold packHunks at hx
      by_cases hs : pyStrip cur = []
      · simp [hs] at hx
      · simp [hs] at hx
        exact Or.inr (Or.inl hx)
  | cons h rest ih =>
      intro cur x hx
      unfold packHunks at hx
      by_cases hov : MAX_CHUNK_CHARS < cur.length + h.length
      · rw [if_pos hov] at hx
        rcases List.mem_append.mp hx with h1 | h1
        · by_cases hs : pyStrip cur = []
          · simp [hs] at h1
          · simp [hs] at h1
            exact Or.inr (Or.inl h1)
        · rcases ih (header ++ h) x h1 with h2 | h2 | ⟨h', hh', he⟩
          · exact Or.inl h2
          · exact Or.inr (Or.inr ⟨h, List.mem_cons_self h rest, h2⟩)
          · exact Or.inr (Or.inr ⟨h', List.mem_cons_of_mem h hh', he⟩)
      · rw [if_neg hov] at hx
        rcases ih (cur ++ h) x hx with h2 | h2 | ⟨h', hh', he⟩
        · exact Or.inl h2
        · refine Or.inl ?_
          rw [h2]
          simpa using Nat.le_of_not_lt hov
        · exact Or.inr (Or.inr ⟨h', List.mem_cons_of_mem h hh', he⟩)

theorem packHunks_reconstruct (header : PyStr) :
    ∀ (hunks : List PyStr) (cur : PyStr), header <+: cur →
      (pyStrip cur = [] → cur = header) →
      (∀ h ∈ hunks, ∃ c ∈ h, isPySpace c = false) →
      ((packHunks header cur hunks).map (fun x => x.drop header.length)).flatten
          = cur.drop header.length ++ hunks.flatten ∧
      ∀ x ∈ packHunks header cur hunks, header <+: x := by
  intro hunks
  induction hunks with
  | nil =>
      intro cur hpre hstrip _
      unfold packHunks
      by_cases hs : pyStrip cur = []
      · rw [if_pos hs]
        constructor
        · rw [hstrip hs]
          simp
        · intro x hx; simp at hx
      · rw [if_neg hs]
        constructor
        · simp
        · intro x hx
          simp at hx
          rw [hx]; exact hpre
  | cons h rest ih =>
      intro cur hpre hstrip hws
      have hwh : ∃ c ∈ h, isPySpace c = false := hws h (List.mem_cons_self h rest)
      have hwrest : ∀ h' ∈ rest, ∃ c ∈ h', isPySpace c = false :=
        fun h' hh' => hws h' (List.mem_cons_of_mem h hh')
      unfold packHunks
      by_cases hov : MAX_CHUNK_CHARS < cur.length + h.length
      · rw [if_pos hov]
        have hpre2 : header <+: header ++ h := List.prefix_append header h
        have hstrip2 : pyStrip (header ++ h) = [] → header ++ h = header := by
          intro hnil
          obtain ⟨c, hc, hcs⟩ := hwh
          exact absurd hnil (pyStrip_ne_nil _ c (List.mem_append.mpr (Or.inr hc)) hcs)
        obtain ⟨ihrec, ihpre⟩ := ih (header ++ h) hpre2 hstrip2 hwrest
        by_cases hs : pyStrip cur = []
        · rw [if_pos hs]
          constructor
          · rw [hstrip hs]
            simp only [List.nil_append, List.map, List.flatten, ihrec, List.drop_left,
              List.drop_length, List.flatten_cons]
          · intro x hx
            simp only [List.nil_append] at hx
            exact ihpre x hx
        · rw [if_neg hs]
          constructor
          · simp [ihrec, List.drop_left]
          · intro x hx
            rcases List.mem_append.mp hx with h1 | h1
            · simp at h1; rw [h1]; exact hpre
            · exact ihpre x h1
      · rw [if_neg hov]
        have hpre2 : header <+: cur ++ h := hpre.trans (List.prefix_append cur h)
        have hstrip2 : pyStrip (cur ++ h) = [] → cur ++ h = header := by
          intro hnil
          obtain ⟨c, hc, hcs⟩ := hwh
          exact absurd hnil (pyStrip_ne_nil _ c (List.mem_append.mpr (Or.inr hc)) hcs)
        obtain ⟨ihrec, ihpre⟩ := ih (cur ++ h) hpre2 hstrip2 hwrest
        constructor
        · rw [ihrec, List.drop_append_of_le_length hpre.length_le]
          simp
        · exact ihpre

/-! ### Lemmas about chunk_diff -/

theorem snd_mem_of_mem_enum {α : Type} {l : List α} {q : Nat × α} (h : q ∈ l.enum) :
    q.2 ∈ l := by
  have he : l.enum.map Prod.snd = l := List.enum_map_snd l
  rw [← he]
  exact List.mem_map_of_mem Prod.snd h

theorem mem_split_diff_by_file (diff : PyStr) (p : PyStr × PyStr)
    (hp : p ∈ _split_diff_by_file diff) :
    extract_filepath p.2 = some p.1 ∧ _should_skip_file p.1 = false := by
  obtain ⟨pa, pb⟩ := p
  obtain ⟨fd, hfd, hsome⟩ := List.mem_filterMap.mp hp
  unfold fileEntry at hsome
  by_cases h1 : pyStrip fd = []
  · simp [h1] at hsome
  · cases hex : extract_filepath fd with
    | none => simp [h1, hex] at hsome
    | some fp =>
        by_cases h2 : _should_skip_file fp = true
        · simp [h1, hex, h2] at hsome
        · simp [h1, hex, h2] at hsome
          obtain ⟨h3, h4⟩ := hsome
          subst h3; subst h4
          exact ⟨hex, Bool.eq_false_iff.mpr h2⟩

theorem mem_unitsOf (p : PyStr × PyStr) (c : Chunk) (hc : c ∈ unitsOf p) :
    c.file = p.1 ∧ c.size = c.content.length ∧
      (c.content = p.2 ∨ c.content ∈ _split_large_file_diff p.2) := by
  unfold unitsOf at hc
  by_cases hlen : p.2.length ≤ MAX_CHUNK_CHARS
  · rw [if_pos hlen] at hc
    simp at hc
    subst hc
    exact ⟨rfl, rfl, Or.inl rfl⟩
  · rw [if_neg hlen] at hc
    obtain ⟨q, hq, hcq⟩ := List.mem_map.mp hc
    subst hcq
    exact ⟨rfl, rfl, Or.inr (snd_mem_of_mem_enum hq)⟩

theorem split_large_mem (fd x : PyStr) (t : PyStr) (r : List PyStr)
    (hsplit : splitBefore "@@".data fd = t :: r)
    (hx : x ∈ _split_large_file_diff fd) :
    x.length ≤ MAX_CHUNK_CHARS ∨ x = t ∨ ∃ h ∈ r, x = t ++ h := by
  unfold _split_large_file_diff at hx
  rw [hsplit] at hx
  exact packHunks_mem t r t x hx

/-- C3 (amended): every work unit produced by the segmenter has size at
most MAX_CHUNK_CHARS, except a unit whose content is an indivisible
fragment of its file diff: the file header followed by at most one hunk
(the no-hunk case is a fragment with no hunk boundary at all, emitted
whole). -/
theorem chunk_size_bound (diff : PyStr) (c : Chunk) (hc : c ∈ chunk_diff diff) :
    c.size ≤ MAX_CHUNK_CHARS ∨
      ∃ p ∈ _split_diff_by_file diff, c.file = p.1 ∧ headerAtMostOneHunkForm p.2 c.content := by
  obtain ⟨p, hpmem, hcp⟩ := List.mem_flatMap.mp hc
  have hfile : c.file = p.1 := (mem_unitsOf p c hcp).1
  have hsize : c.size = c.content.length := (mem_unitsOf p c hcp).2.1
  by_cases hlen : p.2.length ≤ MAX_CHUNK_CHARS
  · left
    unfold unitsOf at hcp
    rw [if_pos hlen] at hcp
    simp at hcp
    subst hcp
    exact hlen
  · unfold unitsOf at hcp
    rw [if_neg hlen] at hcp
    obtain ⟨q, hq, hcq⟩ := List.mem_map.mp hcp
    have hmem : c.content ∈ _split_large_file_diff p.2 := by
      subst hcq
      exact snd_mem_of_mem_enum hq
    cases hsp : splitBefore "@@".data p.2 with
    | nil => exact absurd hsp (splitBefore_ne_nil _ _)
    | cons t r =>
        rcases split_large_mem p.2 c.content t r hsp hmem with h1 | h1 | ⟨h, hh, he⟩
        · left; rw [hsize]; exact h1
        · refine Or.inr ⟨p, hpmem, hfile, Or.inl ?_⟩
          rw [hsp, h1]
          rfl
        · refine Or.inr ⟨p, hpmem, hfile, Or.inr ?_⟩
          unfold headerHunkFormStrict
          rw [hsp]
          exact ⟨h, hh, he⟩



/-! ### Evaluating the chunker on the oversized no-hunk diff

The 4025-character diff is never evaluated wholesale (that recursion is too
deep for definitional unfolding); every fact about it is obtained by
rewriting with the structural lemmas above. -/

theorem isPrefixOf_false_of_head_not_mem (c0 : Char) (pat' s : PyStr) (h : c0 ∉ s) :
    ∀ t, t.IsSuffix s → (c0 :: pat').isPrefixOf t = false := by
  intro t ht
  cases t with
  | nil => rfl
  | cons a t' =>
      by_cases hc : c0 = a
      · subst hc
        exact absurd (ht.subset (List.mem_cons_self c0 t')) h
      · simp [List.isPrefixOf, hc]

theorem splitBeforeGo_no_match (pat : PyStr) :
    ∀ (s : PyStr), (∀ t, t.IsSuffix s → pat.isPrefixOf t = false) →
      ∀ cur, splitBeforeGo pat cur s = [cur.reverse ++ s] := by
  intro s
  induction s with
  | nil => intro _ cur; simp [splitBeforeGo]
  | cons c rest ih =>
      intro h cur
      have hm : pat.isPrefixOf (c :: rest) = false := h (c :: rest) (List.suffix_refl _)
      have hrest : ∀ t, t.IsSuffix rest → pat.isPrefixOf t = false := fun t ht =>
        h t (ht.trans (List.suffix_cons c rest))
      simp only [splitBeforeGo, hm, Bool.false_eq_true, if_false, ih hrest (c :: cur)]
      simp

theorem splitBefore_no_match (pat s : PyStr)
    (h : ∀ t, t.IsSuffix s → pat.isPrefixOf t = false) : splitBefore pat s = [s] := by
  have hgo := splitBeforeGo_no_match pat s h []
  simpa [splitBefore] using hgo

theorem splitBefore_only_initial (pat : PyStr) (c : Char) (rest : PyStr)
    (hinit : pat.isPrefixOf (c :: rest) = true)
    (htail : ∀ t, t.IsSuffix rest → pat.isPrefixOf t = false) :
    splitBefore pat (c :: rest) = [[], c :: rest] := by
  simp only [splitBefore, splitBeforeGo, hinit, if_true]
  rw [splitBeforeGo_no_match pat rest htail [c]]
  simp

theorem pyStrip_cons_concat (c : Char) (mid : PyStr) (d : Char)
    (hc : isPySpace c = false) (hd : isPySpace d = false) :
    pyStrip (c :: (mid ++ [d])) = c :: (mid ++ [d]) := by
  unfold pyStrip
  rw [List.dropWhile_cons, hc]
  simp only [Bool.false_eq_true, if_false]
  have h1 : (c :: (mid ++ [d])).reverse = d :: (mid.reverse ++ [c]) := by simp
  rw [h1, List.dropWhile_cons, hd]
  simp only [Bool.false_eq_true, if_false]
  have h2 : (d :: (mid.reverse ++ [c])).reverse = c :: (mid ++ [d]) := by simp
  rw [h2]

theorem at_mem_bigHeaderDiff_false : '@' ∉ bigHeaderDiff := by
  intro h
  unfold bigHeaderDiff at h
  rcases List.mem_append.mp h with h1 | h1
  · exact absurd h1 (by decide)
  · exact absurd (List.mem_replicate.mp h1).2 (by decide)

theorem d_mem_bigHeaderDiff_tail_false :
    'd' ∉ ("iff --git a/x.py b/x.py\n".data ++ List.replicate 4000 'A') := by
  intro h
  rcases List.mem_append.mp h with h1 | h1
  · exact absurd h1 (by decide)
  · exact absurd (List.mem_replicate.mp h1).2 (by decide)

theorem bigHeaderDiff_cons :
    bigHeaderDiff = 'd' :: ("iff --git a/x.py b/x.py\n".data ++ List.replicate 4000 'A') := rfl

theorem bigHeaderDiff_ne_nil : bigHeaderDiff ≠ [] := by
  rw [bigHeaderDiff_cons]
  exact List.cons_ne_nil _ _

theorem bigHeaderDiff_concat_form :
    bigHeaderDiff
      = 'd' :: (("iff --git a/x.py b/x.py\n".data ++ List.replicate 3999 'A') ++ ['A']) := by
  rw [bigHeaderDiff_cons, show (4000 : Nat) = 3999 + 1 from by norm_num,
    List.replicate_succ' 3999 'A', ← List.append_assoc]

theorem pyStrip_bigHeaderDiff : pyStrip bigHeaderDiff = bigHeaderDiff := by
  rw [bigHeaderDiff_concat_form]
  exact pyStrip_cons_concat 'd' _ 'A' (by decide) (by decide)

theorem bigHeaderDiff_length : bigHeaderDiff.length = 4025 := by
  unfold bigHeaderDiff
  rw [List.length_append, List.length_replicate]
  rfl

theorem splitBefore_hunk_bigHeaderDiff :
    splitBefore "@@".data bigHeaderDiff = [bigHeaderDiff] := by
  apply splitBefore_no_match
  exact isPrefixOf_false_of_head_not_mem '@' "@".data bigHeaderDiff at_mem_bigHeaderDiff_false

theorem splitBefore_file_bigHeaderDiff :
    splitBefore "diff --git ".data bigHeaderDiff = [[], bigHeaderDiff] := by
  rw [bigHeaderDiff_cons]
  exact splitBefore_only_initial "diff --git ".data 'd' _ rfl
    (isPrefixOf_false_of_head_not_mem 'd' "iff --git ".data _ d_mem_bigHeaderDiff_tail_false)

theorem fileEntry_bigHeaderDiff :
    fileEntry bigHeaderDiff = some ("x.py".data, bigHeaderDiff) := by
  unfold fileEntry
  rw [pyStrip_bigHeaderDiff, if_neg bigHeaderDiff_ne_nil]
  rfl

theorem split_diff_by_file_bigHeaderDiff :
    _split_diff_by_file bigHeaderDiff = [("x.py".data, bigHeaderDiff)] := by
  unfold _split_diff_by_file
  rw [pyStrip_bigHeaderDiff, splitBefore_file_bigHeaderDiff,
    List.filterMap_cons_none (show fileEntry [] = none from rfl),
    List.filterMap_cons_some fileEntry_bigHeaderDiff, List.filterMap_nil]

theorem split_large_bigHeaderDiff :
    _split_large_file_diff bigHeaderDiff = [bigHeaderDiff] := by
  unfold _split_large_file_diff
  rw [splitBefore_hunk_bigHeaderDiff]
  show packHunks bigHeaderDiff bigHeaderDiff [] = [bigHeaderDiff]
  unfold packHunks
  rw [pyStrip_bigHeaderDiff, if_neg bigHeaderDiff_ne_nil]

theorem unitsOf_large (p : PyStr × PyStr) (h : ¬ p.2.length ≤ MAX_CHUNK_CHARS) :
    unitsOf p = (_split_large_file_diff p.2).enum.map fun q =>
      ⟨p.1 ++ ':' :: natChars q.1, p.1, q.2, q.2.length⟩ := by
  unfold unitsOf
  rw [if_neg h]

theorem chunk_diff_bigHeaderDiff :
    chunk_diff bigHeaderDiff
      = [{ chunk_id := "x.py".data ++ ':' :: natChars 0, file := "x.py".data,
           content := bigHeaderDiff, size := bigHeaderDiff.length }] := by
  unfold chunk_diff
  rw [split_diff_by_file_bigHeaderDiff, List.flatMap_cons, List.flatMap_nil,
    List.append_nil]
  have hn : ¬ ((("x.py".data, bigHeaderDiff) : PyStr × PyStr).2.length ≤ MAX_CHUNK_CHARS) := by
    show ¬ (bigHeaderDiff.length ≤ MAX_CHUNK_CHARS)
    rw [bigHeaderDiff_length]
    decide
  rw [unitsOf_large _ hn, split_large_bigHeaderDiff]
  rfl

/-- C3 counterexample: on a diff whose only file fragment is longer than
MAX_CHUNK_CHARS but has no hunk boundary at all, the emitted unit exceeds
the bound and is not of the one-header-plus-one-hunk shape that the claim
allows as the only exception. -/
theorem chunk_size_claim_false : ¬ chunkSizeClaim bigHeaderDiff := by
  intro hcl
  have hu := hcl _ (by rw [chunk_diff_bigHeaderDiff]; exact List.mem_singleton.mpr rfl)
  rcases hu with h1 | ⟨p, hp, _, hform⟩
  · have h2 : bigHeaderDiff.length ≤ MAX_CHUNK_CHARS := h1
    rw [bigHeaderDiff_length] at h2
    exact absurd h2 (by decide)
  · rw [split_diff_by_file_bigHeaderDiff] at hp
    have hpval : p = ("x.py".data, bigHeaderDiff) := List.mem_singleton.mp hp
    subst hpval
    unfold headerHunkFormStrict at hform
    obtain ⟨h, hh, _⟩ := hform
    rw [splitBefore_hunk_bigHeaderDiff] at hh
    exact absurd hh (List.not_mem_nil h)

/-! ### C4: the segmenter is a complete partition -/

theorem splitBefore_headD_prefix (pat s : PyStr) : (splitBefore pat s).headD [] <+: s :=
  ⟨((splitBefore pat s).tail).flatten, splitBefore_head_append pat s⟩

theorem enum_map_snd_comp {α β : Type} (l : List α) (g : α → β) :
    l.enum.map (fun q => g q.2) = l.map g := by
  rw [show (fun q : Nat × α => g q.2) = g ∘ Prod.snd from rfl, ← List.map_map,
    List.enum_map_snd]

theorem unitsOf_map_content (p : PyStr × PyStr) (h : ¬ p.2.length ≤ MAX_CHUNK_CHARS)
    (g : PyStr → PyStr) :
    (unitsOf p).map (fun c => g c.content) = (_split_large_file_diff p.2).map g := by
  rw [unitsOf_large p h, List.map_map]
  exact enum_map_snd_comp (_split_large_file_diff p.2) g

/-- C4: the segmenter partitions the retained files completely: every
produced unit carries a non-ignored file path; the units of one retained
file fragment all start with that fragment's header, and stripping the
repeated header from each unit and concatenating in order reconstructs the
fragment's hunks exactly once, in order, with none dropped; and the chunk
list is exactly the per-file units in file order. -/
theorem chunk_partition (diff : PyStr) :
    (∀ c ∈ chunk_diff diff, _should_skip_file c.file = false) ∧
    (∀ p ∈ _split_diff_by_file diff,
      (∀ c ∈ unitsOf p, c.file = p.1) ∧
      (∀ c ∈ unitsOf p, (splitBefore "@@".data p.2).headD [] <+: c.content) ∧
      ((unitsOf p).map
          (fun c => c.content.drop ((splitBefore "@@".data p.2).headD []).length)).flatten
        = p.2.drop ((splitBefore "@@".data p.2).headD []).length) ∧
    chunk_diff diff = (_split_diff_by_file diff).flatMap unitsOf := by
  refine ⟨?_, ?_, rfl⟩
  · intro c hc
    obtain ⟨p, hp, hcu⟩ := List.mem_flatMap.mp hc
    rw [(mem_unitsOf p c hcu).1]
    exact (mem_split_diff_by_file diff p hp).2
  · intro p hp
    refine ⟨fun c hc => (mem_unitsOf p c hc).1, ?_, ?_⟩
    · intro c hc
      rcases (mem_unitsOf p c hc).2.2 with hwhole | hlarge
      · rw [hwhole]
        exact splitBefore_headD_prefix "@@".data p.2
      · cases hsp : splitBefore "@@".data p.2 with
        | nil => exact absurd hsp (splitBefore_ne_nil _ _)
        | cons t r =>
            have hws : ∀ h ∈ r, ∃ ch ∈ h, isPySpace ch = false := by
              intro h hh
              have hth := splitBefore_tail_head '@' "@".data p.2 h
                (by rw [show splitBefore ('@' :: "@".data) p.2
                          = splitBefore "@@".data p.2 from rfl, hsp]; exact hh)
              obtain ⟨t', rfl⟩ := hth
              exact ⟨'@', List.mem_cons_self _ _, by decide⟩
            have hpack := (packHunks_reconstruct t r t (List.prefix_refl t)
              (fun _ => rfl) hws).2
            unfold _split_large_file_diff at hlarge
            rw [hsp] at hlarge
            show t <+: c.content
            exact hpack c.content hlarge
    · by_cases hlen : p.2.length ≤ MAX_CHUNK_CHARS
      · have hunits : unitsOf p
            = [⟨p.1 ++ ':' :: natChars 0, p.1, p.2, p.2.length⟩] := by
          unfold unitsOf
          rw [if_pos hlen]
        rw [hunits]
        simp
      · cases hsp : splitBefore "@@".data p.2 with
        | nil => exact absurd hsp (splitBefore_ne_nil _ _)
        | cons t r =>
            have hws : ∀ h ∈ r, ∃ ch ∈ h, isPySpace ch = false := by
              intro h hh
              have hth := splitBefore_tail_head '@' "@".data p.2 h
                (by rw [show splitBefore ('@' :: "@".data) p.2
                          = splitBefore "@@".data p.2 from rfl, hsp]; exact hh)
              obtain ⟨t', rfl⟩ := hth
              exact ⟨'@', List.mem_cons_self _ _, by decide⟩
            have hrec := (packHunks_reconstruct t r t (List.prefix_refl t)
              (fun _ => rfl) hws).1
            have hsl : _split_large_file_diff p.2 = packHunks t t r := by
              unfold _split_large_file_diff
              rw [hsp]
            have hha : t ++ r.flatten = p.2 := by
              have := splitBefore_head_append "@@".data p.2
              rw [hsp] at this
              exact this
            show ((unitsOf p).map (fun c => c.content.drop t.length)).flatten
              = p.2.drop t.length
            rw [unitsOf_map_content p hlen (fun x => x.drop t.length), hsl, hrec,
              List.drop_length, List.nil_append, ← hha, List.drop_left]

/-! ### Lemmas about the aggregator -/

theorem specMaxSeverity_cons_other (x : Finding) (rest : List Finding)
    (hx : x.severity ≠ "high") (hm : x.severity ≠ "medium") :
    specMaxSeverity (x :: rest) = specMaxSeverity rest := by
  have hx' : ("high" = x.severity) = False :=
    eq_false (fun h : "high" = x.severity => hx h.symm)
  have hm' : ("medium" = x.severity) = False :=
    eq_false (fun h : "medium" = x.severity => hm h.symm)
  unfold specMaxSeverity
  simp only [List.map_cons, List.mem_cons, hx', hm', false_or]

theorem high_mem_cons_other (x : Finding) (rest : List Finding)
    (hx : x.severity ≠ "high") :
    ("high" ∈ (x :: rest).map (·.severity)) = ("high" ∈ rest.map (·.severity)) := by
  have hx' : ("high" = x.severity) = False :=
    eq_false (fun h : "high" = x.severity => hx h.symm)
  simp only [List.map_cons, List.mem_cons, hx', false_or]

theorem foldl_maxRiskStep_char (l : List Finding) :
    l.foldl maxRiskStep "low" = specMaxSeverity l ∧
    l.foldl maxRiskStep "medium"
      = (if "high" ∈ l.map (·.severity) then "high" else "medium") ∧
    l.foldl maxRiskStep "high" = "high" := by
  induction l with
  | nil => exact ⟨by simp [specMaxSeverity], by simp, rfl⟩
  | cons x rest ih =>
      obtain ⟨ih1, ih2, ih3⟩ := ih
      by_cases hx : x.severity = "high"
      · have s1 : maxRiskStep "low" x = "high" := by
          simp [maxRiskStep, riskOrderGet, hx]
        have s2 : maxRiskStep "medium" x = "high" := by
          simp [maxRiskStep, riskOrderGet, hx]
        have s3 : maxRiskStep "high" x = "high" := by
          simp [maxRiskStep, riskOrderGet, hx]
        refine ⟨?_, ?_, ?_⟩
        · rw [List.foldl_cons, s1, ih3]
          simp [specMaxSeverity, hx]
        · rw [List.foldl_cons, s2, ih3]
          simp [hx]
        · rw [List.foldl_cons, s3, ih3]
      · by_cases hm : x.severity = "medium"
        · have s1 : maxRiskStep "low" x = "medium" := by
            simp [maxRiskStep, riskOrderGet, hm]
          have s2 : maxRiskStep "medium" x = "medium" := by
            simp [maxRiskStep, riskOrderGet, hm]
          have s3 : maxRiskStep "high" x = "high" := by
            simp [maxRiskStep, riskOrderGet, hm]
          refine ⟨?_, ?_, ?_⟩
          · rw [List.foldl_cons, s1, ih2]
            by_cases hh : "high" ∈ rest.map (·.severity)
            · simp [specMaxSeverity, hh, hm, hx]
            · simp [specMaxSeverity, hh, hm, hx]
          · rw [List.foldl_cons, s2, ih2]
            simp [hm, hx]
          · rw [List.foldl_cons, s3, ih3]
        · have hr0 : riskOrderGet x.severity = 0 := by
            unfold riskOrderGet
            by_cases hl : x.severity = "low" <;> simp [hl, hm, hx]
          have s1 : maxRiskStep "low" x = "low" := by
            unfold maxRiskStep
            rw [hr0]
            simp [riskOrderGet]
          have s2 : maxRiskStep "medium" x = "medium" := by
            unfold maxRiskStep
            rw [hr0]
            simp [riskOrderGet]
          have s3 : maxRiskStep "high" x = "high" := by
            unfold maxRiskStep
            rw [hr0]
            simp [riskOrderGet]
          refine ⟨?_, ?_, ?_⟩
          · rw [List.foldl_cons, s1, ih1, specMaxSeverity_cons_other x rest hx hm]
          · rw [List.foldl_cons, s2, ih2]
            simp only [high_mem_cons_other x rest hx]
          · rw [List.foldl_cons, s3, ih3]

theorem specMaxSeverity_perm (l l' : List Finding) (h : l.Perm l') :
    specMaxSeverity l = specMaxSeverity l' := by
  unfold specMaxSeverity
  simp only [(h.map (·.severity)).mem_iff]

theorem dedupGo_eq_keepFirstAux :
    ∀ (l : List Finding) (seen : List (String × String)) (earlier : List Finding),
      (∀ k, k ∈ seen ↔ ∃ y ∈ earlier, keyOf y = k) →
      dedupGo seen l = keepFirstAux earlier l := by
  intro l
  induction l with
  | nil => intro seen earlier _; rfl
  | cons x rest ih =>
      intro seen earlier hinv
      have hiff : ((x.title, x.file) ∈ seen) ↔ (∃ y ∈ earlier, keyOf y = keyOf x) :=
        hinv (keyOf x)
      unfold dedupGo keepFirstAux
      by_cases hmem : (x.title, x.file) ∈ seen
      · rw [if_pos hmem, if_pos (hiff.mp hmem)]
        apply ih
        intro k
        constructor
        · intro hk
          obtain ⟨y, hy, hky⟩ := (hinv k).mp hk
          exact ⟨y, List.mem_append.mpr (Or.inl hy), hky⟩
        · rintro ⟨y, hy, hky⟩
          rcases List.mem_append.mp hy with h1 | h1
          · exact (hinv k).mpr ⟨y, h1, hky⟩
          · have hxy : y = x := List.mem_singleton.mp h1
            subst hxy
            rw [← hky]
            exact hmem
      · rw [if_neg hmem, if_neg (fun hcon => hmem (hiff.mpr hcon))]
        congr 1
        apply ih
        intro k
        constructor
        · intro hk
          rcases List.mem_cons.mp hk with h1 | h1
          · exact ⟨x, List.mem_append.mpr (Or.inr (List.mem_singleton.mpr rfl)), h1.symm⟩
          · obtain ⟨y, hy, hky⟩ := (hinv k).mp h1
            exact ⟨y, List.mem_append.mpr (Or.inl hy), hky⟩
        · rintro ⟨y, hy, hky⟩
          rcases List.mem_append.mp hy with h1 | h1
          · exact List.mem_cons.mpr (Or.inr ((hinv k).mpr ⟨y, h1, hky⟩))
          · have hxy : y = x := List.mem_singleton.mp h1
            subst hxy
            exact List.mem_cons.mpr (Or.inl hky.symm)

theorem dedupIssues_eq_keepFirstSpec (l : List Finding) :
    dedupIssues l = keepFirstSpec l := by
  apply dedupGo_eq_keepFirstAux
  intro k
  simp

theorem dedupGo_of_nodup :
    ∀ (l : List Finding) (seen : List (String × String)),
      (l.map keyOf).Nodup → (∀ x ∈ l, keyOf x ∉ seen) → dedupGo seen l = l := by
  intro l
  induction l with
  | nil => intro seen _ _; rfl
  | cons x rest ih =>
      intro seen hnd hns
      have hnd2 : (∀ y ∈ rest, ¬ keyOf y = keyOf x) ∧ (rest.map keyOf).Nodup := by
        simpa using hnd
      unfold dedupGo
      rw [if_neg (show (x.title, x.file) ∉ seen from hns x (List.mem_cons_self x rest))]
      congr 1
      apply ih ((x.title, x.file) :: seen) hnd2.2
      intro y hy hcon
      rcases List.mem_cons.mp hcon with h1 | h1
      · exact hnd2.1 y hy h1
      · exact hns y (List.mem_cons_of_mem x hy) h1

theorem dedupIssues_of_nodup (l : List Finding) (h : (l.map keyOf).Nodup) :
    dedupIssues l = l :=
  dedupGo_of_nodup l [] h (by intro x _ hc; exact List.not_mem_nil _ hc)

theorem insertIssue_perm (a : Finding) (l : List Finding) :
    (insertIssue a l).Perm (a :: l) := by
  induction l with
  | nil => exact List.Perm.refl _
  | cons b t ih =>
      unfold insertIssue
      by_cases h : severityOrderGet a.severity ≤ severityOrderGet b.severity
      · rw [if_pos h]
      · rw [if_neg h]
        exact (ih.cons b).trans (List.Perm.swap a b t)

theorem sortIssues_perm (l : List Finding) : (sortIssues l).Perm l := by
  induction l with
  | nil => exact List.Perm.refl _
  | cons a t ih =>
      unfold sortIssues
      exact (insertIssue_perm a (sortIssues t)).trans (ih.cons a)

theorem mem_insertIssue (x a : Finding) (l : List Finding) :
    x ∈ insertIssue a l ↔ x = a ∨ x ∈ l := by
  rw [(insertIssue_perm a l).mem_iff]
  exact List.mem_cons

theorem insertIssue_sorted (a : Finding) (l : List Finding)
    (h : l.Pairwise (fun u v => severityOrderGet u.severity ≤ severityOrderGet v.severity)) :
    (insertIssue a l).Pairwise
      (fun u v => severityOrderGet u.severity ≤ severityOrderGet v.severity) := by
  induction l with
  | nil => simp [insertIssue]
  | cons b t ih =>
      obtain ⟨hb, ht⟩ := List.pairwise_cons.mp h
      unfold insertIssue
      by_cases hc : severityOrderGet a.severity ≤ severityOrderGet b.severity
      · rw [if_pos hc]
        refine List.pairwise_cons.mpr ⟨?_, h⟩
        intro v hv
        rcases List.mem_cons.mp hv with h1 | h1
        · rw [h1]; exact hc
        · exact hc.trans (hb v h1)
      · rw [if_neg hc]
        refine List.pairwise_cons.mpr ⟨?_, ih ht⟩
        intro v hv
        rcases (mem_insertIssue v a t).mp hv with h1 | h1
        · rw [h1]; exact Nat.le_of_not_le hc
        · exact hb v h1

theorem sortIssues_sorted (l : List Finding) :
    (sortIssues l).Pairwise
      (fun u v => severityOrderGet u.severity ≤ severityOrderGet v.severity) := by
  induction l with
  | nil => simp [sortIssues]
  | cons a t ih => exact insertIssue_sorted a (sortIssues t) ih

theorem sortIssues_of_sorted :
    ∀ l : List Finding,
      l.Pairwise (fun u v => severityOrderGet u.severity ≤ severityOrderGet v.severity) →
      sortIssues l = l := by
  intro l
  induction l with
  | nil => intro _; rfl
  | cons a t ih =>
      intro h
      obtain ⟨ha, ht⟩ := List.pairwise_cons.mp h
      show insertIssue a (sortIssues t) = a :: t
      rw [ih ht]
      cases t with
      | nil => rfl
      | cons b t' =>
          show (if severityOrderGet a.severity ≤ severityOrderGet b.severity
            then a :: b :: t' else b :: insertIssue a t') = a :: b :: t'
          rw [if_pos (ha b (List.mem_cons_self b t'))]

theorem sevKey_desc_iff (s t : String) :
    severityOrderGet s ≤ severityOrderGet t ↔ descRank t ≤ descRank s := by
  unfold severityOrderGet descRank
  by_cases hs1 : s = "high" <;> by_cases hs2 : s = "medium" <;>
    by_cases ht1 : t = "high" <;> by_cases ht2 : t = "medium" <;>
    simp [hs1, hs2, ht1, ht2]

theorem insertIssue_eq_insertDesc (a : Finding) :
    ∀ l : List Finding, insertIssue a l = insertDesc a l := by
  intro l
  induction l with
  | nil => rfl
  | cons b t ih =>
      unfold insertIssue insertDesc
      by_cases h : severityOrderGet a.severity ≤ severityOrderGet b.severity
      · rw [if_pos h, if_pos ((sevKey_desc_iff _ _).mp h)]
      · rw [if_neg h, if_neg (fun hc => h ((sevKey_desc_iff _ _).mpr hc)), ih]

theorem sortIssues_eq_sortDescSpec : ∀ l : List Finding, sortIssues l = sortDescSpec l := by
  intro l
  induction l with
  | nil => rfl
  | cons a t ih =>
      show insertIssue a (sortIssues t) = insertDesc a (sortDescSpec t)
      rw [ih, insertIssue_eq_insertDesc]

theorem countsGet_bump (cs : List (String × Nat)) (b : String) (k : Nat) (a : String) :
    countsGet (bump cs b k) a = countsGet cs a + (if b = a then k else 0) := by
  induction cs with
  | nil =>
      by_cases h : b = a <;> simp [bump, countsGet, h]
  | cons p rest ih =>
      obtain ⟨c, n⟩ := p
      unfold bump
      by_cases h1 : c = b
      · rw [if_pos h1]
        by_cases h2 : c = a
        · subst h1; subst h2
          simp [countsGet]
        · simp only [countsGet, h2, if_false, eq_false h2]
          simp [h2]
          intro hba
          exact absurd (h1.trans hba) h2
      · rw [if_neg h1]
        by_cases h2 : c = a
        · subst h2
          have hba : (b = c) = False := eq_false (fun h : b = c => h1 h.symm)
          simp [countsGet, hba]
        · simp [countsGet, h2, ih]

theorem countsGet_foldl_bump (a : String) :
    ∀ (rs : List RawResult) (cs0 : List (String × Nat)),
      countsGet (rs.foldl (fun cs r => bump cs r.agent r.issues.length) cs0) a
        = countsGet cs0 a + countChannel rs a := by
  intro rs
  induction rs with
  | nil => intro cs0; simp [countChannel]
  | cons r rest ih =>
      intro cs0
      rw [List.foldl_cons, ih, countsGet_bump]
      unfold countChannel
      by_cases h : r.agent = a
      · rw [if_pos h]
        rw [List.filter_cons_of_pos (by simpa using h), List.map_cons, List.sum_cons]
        omega
      · rw [if_neg h]
        rw [List.filter_cons_of_neg (by simpa using h)]
        omega

theorem agentCounts_get (rs : List RawResult) (a : String) :
    countsGet (agentCounts rs) a = countChannel rs a := by
  have := countsGet_foldl_bump a rs []
  simpa [agentCounts, countsGet] using this

theorem found_ne (s t : String) : "Found " ++ s ++ t ≠ "No significant issues found." := by
  intro h
  have hd := congrArg String.data h
  rw [String.data_append, String.data_append] at hd
  have h1 : (("Found ".data ++ s.data) ++ t.data).headD ' ' = 'F' := rfl
  rw [hd] at h1
  exact absurd h1 (by decide)

/-! ### Claim theorems for the aggregator -/

/-- C10: the summary sentence counts findings per channel over the raw,
pre-deduplication, pre-truncation results (so removed duplicates and
findings beyond the cap are still counted), and it is the fixed sentence
"No significant issues found." exactly when none of the four channels
reported any finding. -/
theorem aggregate_summary_raw_counts (rs : List RawResult) (n m : Nat) :
    (_aggregate rs n m).summary = specSummary rs ∧
    ((_aggregate rs n m).summary = "No significant issues found." ↔
      countChannel rs "security" = 0 ∧ countChannel rs "code_quality" = 0 ∧
      countChannel rs "performance" = 0 ∧ countChannel rs "tests" = 0) := by
  have h1 : (_aggregate rs n m).summary = specSummary rs := by
    show mkSummary (agentCounts rs) = specSummary rs
    unfold mkSummary specSummary
    rw [agentCounts_get rs "security", agentCounts_get rs "code_quality",
      agentCounts_get rs "performance", agentCounts_get rs "tests"]
  refine ⟨h1, ?_⟩
  rw [h1]
  unfold specSummary
  by_cases hs : countChannel rs "security" = 0 <;>
    by_cases hq : countChannel rs "code_quality" = 0 <;>
    by_cases hp : countChannel rs "performance" = 0 <;>
    by_cases ht : countChannel rs "tests" = 0 <;>
    simp [hs, hq, hp, ht, found_ne]

/-- C2 counterexample: with two findings sharing the same (title, file) but
different severities, the low one submitted first, the aggregator's risk is
the maximum over ALL raw findings (high), not the maximum over the
deduplicated set as the claim states (the kept occurrence is low). -/
theorem aggregate_risk_not_dedup_max :
    (_aggregate dupSevResults 1 10).risk
      ≠ specMaxSeverity (dedupIssues (dupSevResults.flatMap (·.issues))) ∧
    (_aggregate dupSevResults 1 10).risk = "high" ∧
    specMaxSeverity (dedupIssues (dupSevResults.flatMap (·.issues))) = "low" := by
  refine ⟨?_, by decide, by decide⟩
  decide

/-- C2 (amended): for every raw result sequence and max_issues at least 1,
the aggregated issues list has length at most max_issues, and risk is the
maximum severity present among ALL raw findings (before deduplication and
truncation), or low when there are none. -/
theorem aggregate_cap_and_risk (rs : List RawResult) (n m : Nat) (hm : 1 ≤ m) :
    (_aggregate rs n m).issues.length ≤ m ∧
    (_aggregate rs n m).risk = specMaxSeverity (rs.flatMap (·.issues)) := by
  constructor
  · show ((sortIssues (dedupIssues (rs.flatMap (·.issues)))).take m).length ≤ m
    exact (sortIssues (dedupIssues (rs.flatMap (·.issues)))).length_take_le m
  · show (rs.flatMap (·.issues)).foldl maxRiskStep "low" = _
    exact (foldl_maxRiskStep_char (rs.flatMap (·.issues))).1

theorem aggregate_cap_and_risk_witness :
    1 ≤ 10 ∧
    ((_aggregate oneIssueResults 3 10).issues.length ≤ 10 ∧
      (_aggregate oneIssueResults 3 10).risk
        = specMaxSeverity (oneIssueResults.flatMap (·.issues))) :=
  ⟨by decide, aggregate_cap_and_risk oneIssueResults 3 10 (by decide)⟩

/-- C5: the aggregated issues list equals the spec pipeline: flatten in
task-submission order, drop every finding whose (title, file) key matches
an earlier finding, stably sort by severity descending, truncate to
max_issues. -/
theorem aggregate_issues_pipeline (rs : List RawResult) (n m : Nat) :
    (_aggregate rs n m).issues
      = (sortDescSpec (keepFirstSpec (rs.flatMap (·.issues)))).take m := by
  show (sortIssues (dedupIssues (rs.flatMap (·.issues)))).take m = _
  rw [dedupIssues_eq_keepFirstSpec, sortIssues_eq_sortDescSpec]

/-! ### C6: idempotence of re-aggregation -/

theorem keyOf_nodup_sortIssues (l : List Finding) (h : (l.map keyOf).Nodup) :
    ((sortIssues l).map keyOf).Nodup :=
  (((sortIssues_perm l).map keyOf).nodup_iff).mpr h

theorem aggregate_issues_of_nodup_capped (rs : List RawResult) (n m : Nat)
    (hd : ((rs.flatMap (·.issues)).map keyOf).Nodup)
    (hc : (rs.flatMap (·.issues)).length ≤ m) :
    (_aggregate rs n m).issues = sortIssues (rs.flatMap (·.issues)) := by
  show (sortIssues (dedupIssues (rs.flatMap (·.issues)))).take m = _
  rw [dedupIssues_of_nodup _ hd]
  exact List.take_of_length_le (by rw [(sortIssues_perm _).length_eq]; exact hc)

/-- C6 counterexample: one already-deduplicated, already-capped security
finding; feeding the aggregate back through aggregation changes the result,
because the re-fed result dict carries no agent attribution and the summary
degrades to the empty-findings sentence. -/
theorem aggregate_not_idempotent :
    ((oneIssueResults.flatMap (·.issues)).map keyOf).Nodup ∧
    (oneIssueResults.flatMap (·.issues)).length ≤ 10 ∧
    _aggregate [asRaw (_aggregate oneIssueResults 1 10)] 1 10
      ≠ _aggregate oneIssueResults 1 10 := by
  refine ⟨by decide, by decide, ?_⟩
  intro h
  have hsum := congrArg ReviewResult.summary h
  exact absurd hsum (by decide)

/-- C6 (amended): on input that is already deduplicated by (title, file)
and already within the max_issues cap, re-aggregating the aggregate's own
issue list reproduces the issues, risk, checklist and chunk count; only
the summary differs (channel attribution is lost in the output). -/
theorem aggregate_idempotent_except_summary (rs : List RawResult) (n m : Nat)
    (hd : ((rs.flatMap (·.issues)).map keyOf).Nodup)
    (hc : (rs.flatMap (·.issues)).length ≤ m) :
    (_aggregate [asRaw (_aggregate rs n m)] n m).issues = (_aggregate rs n m).issues ∧
    (_aggregate [asRaw (_aggregate rs n m)] n m).risk = (_aggregate rs n m).risk ∧
    (_aggregate [asRaw (_aggregate rs n m)] n m).checklist
      = (_aggregate rs n m).checklist ∧
    (_aggregate [asRaw (_aggregate rs n m)] n m).chunks_count
      = (_aggregate rs n m).chunks_count := by
  have hflat : [asRaw (_aggregate rs n m)].flatMap (·.issues)
      = (_aggregate rs n m).issues := by
    rw [List.flatMap_cons, List.flatMap_nil, List.append_nil]
    rfl
  have hIss : (_aggregate rs n m).issues = sortIssues (rs.flatMap (·.issues)) :=
    aggregate_issues_of_nodup_capped rs n m hd hc
  have hnd2 : (((_aggregate rs n m).issues).map keyOf).Nodup := by
    rw [hIss]
    exact keyOf_nodup_sortIssues _ hd
  have hlen2 : ((_aggregate rs n m).issues).length ≤ m := by
    rw [hIss, (sortIssues_perm _).length_eq]
    exact hc
  have hIss2 : (_aggregate [asRaw (_aggregate rs n m)] n m).issues
      = (_aggregate rs n m).issues := by
    show (sortIssues (dedupIssues
        ([asRaw (_aggregate rs n m)].flatMap (·.issues)))).take m = _
    rw [hflat, dedupIssues_of_nodup _ hnd2]
    conv_lhs => rw [hIss]
    rw [sortIssues_of_sorted _ (sortIssues_sorted _), ← hIss]
    exact List.take_of_length_le hlen2
  refine ⟨hIss2, ?_, ?_, rfl⟩
  · show ([asRaw (_aggregate rs n m)].flatMap (·.issues)).foldl maxRiskStep "low" = _
    rw [hflat, (foldl_maxRiskStep_char _).1]
    have hrisk : (_aggregate rs n m).risk
        = specMaxSeverity (rs.flatMap (·.issues)) := (foldl_maxRiskStep_char _).1
    rw [hrisk, hIss]
    exact specMaxSeverity_perm _ _ (sortIssues_perm _)
  · show ((_aggregate [asRaw (_aggregate rs n m)] n m).issues).filterMap _
      = ((_aggregate rs n m).issues).filterMap _
    rw [hIss2]

theorem aggregate_idempotent_except_summary_witness :
    (((oneIssueResults.flatMap (·.issues)).map keyOf).Nodup ∧
      (oneIssueResults.flatMap (·.issues)).length ≤ 10) ∧
    ((_aggregate [asRaw (_aggregate oneIssueResults 1 10)] 1 10).issues
        = (_aggregate oneIssueResults 1 10).issues ∧
      (_aggregate [asRaw (_aggregate oneIssueResults 1 10)] 1 10).risk
        = (_aggregate oneIssueResults 1 10).risk ∧
      (_aggregate [asRaw (_aggregate oneIssueResults 1 10)] 1 10).checklist
        = (_aggregate oneIssueResults 1 10).checklist ∧
      (_aggregate [asRaw (_aggregate oneIssueResults 1 10)] 1 10).chunks_count
        = (_aggregate oneIssueResults 1 10).chunks_count) :=
  ⟨⟨by decide, by decide⟩,
    aggregate_idempotent_except_summary oneIssueResults 1 10 (by decide) (by decide)⟩

/-! ### C7: executor failure isolation -/

/-- C7: a failing task (its oracle outcome is none, covering transport
errors, malformed and non-JSON replies) yields the empty-findings result
for its channel; the run still produces one result per task, and any
sibling task whose own outcome is unchanged produces the same result
regardless of the failure. -/
theorem executor_isolates_failures (oracle : Nat → Option RawResult)
    (tasks : List ReviewTask) (i : Nat) (t : ReviewTask)
    (ht : tasks[i]? = some t) (hfail : oracle i = none) :
    (executeTasks oracle tasks).length = tasks.length ∧
    (executeTasks oracle tasks)[i]? = some { agent := t.channel, issues := [] } ∧
    (∀ (oracle2 : Nat → Option RawResult) (j : Nat), oracle2 j = oracle j →
      (executeTasks oracle2 tasks)[j]? = (executeTasks oracle tasks)[j]?) := by
  refine ⟨?_, ?_, ?_⟩
  · unfold executeTasks
    rw [List.length_map, List.enum_length]
  · unfold executeTasks
    rw [List.getElem?_map, List.getElem?_enum, ht]
    show some (_run_agent (oracle i) t.channel) = _
    rw [hfail]
    rfl
  · intro o2 j h2
    unfold executeTasks
    rw [List.getElem?_map, List.getElem?_map, List.getElem?_enum]
    cases tasks[j]? with
    | none => rfl
    | some u =>
        show some (_run_agent (o2 j) u.channel) = some (_run_agent (oracle j) u.channel)
        rw [h2]

theorem executor_isolates_failures_witness :
    (sampleTasks[0]? = some { channel := "security", unit := pyChunk } ∧
      (fun _ : Nat => (none : Option RawResult)) 0 = none) ∧
    ((executeTasks (fun _ => none) sampleTasks).length = sampleTasks.length ∧
      (executeTasks (fun _ => none) sampleTasks)[0]?
        = some { agent := "security", issues := [] } ∧
      (∀ (oracle2 : Nat → Option RawResult) (j : Nat),
        oracle2 j = (fun _ => (none : Option RawResult)) j →
        (executeTasks oracle2 sampleTasks)[j]?
          = (executeTasks (fun _ => none) sampleTasks)[j]?)) :=
  ⟨⟨by decide, rfl⟩,
    executor_isolates_failures (fun _ => none) sampleTasks 0
      { channel := "security", unit := pyChunk } (by decide) rfl⟩

/-! ### C8: review-scope decision -/

/-- C8: on a synchronize trigger with head SHA h, when the most recent
successful run record carries a nonempty commit SHA S different from h,
the orchestrator chooses incremental scope and requests exactly the diff
between S and h; when no prior successful SHA exists the scope is full,
and an opened or reopened trigger always gets full scope with the whole
PR diff. -/
theorem scope_decision_correct :
    (∀ (runs : List RunRecord) (doc : RunRecord) (S h : String),
      runs.find? (fun r => r.status = "success") = some doc →
      doc.commit_sha = some S → S ≠ "" → h ≠ "" → S ≠ h →
      decideScope "synchronize" (some h) runs
        = ("incremental", DiffRequest.commitDiff S h)) ∧
    (∀ (runs : List RunRecord) (h : String),
      get_last_reviewed_sha runs = none →
      decideScope "synchronize" (some h) runs = ("full", DiffRequest.prDiff)) ∧
    (∀ (act : String) (hs : Option String) (runs : List RunRecord),
      act = "opened" ∨ act = "reopened" →
      decideScope act hs runs = ("full", DiffRequest.prDiff)) := by
  refine ⟨?_, ?_, ?_⟩
  · intro runs doc S h hfind hsha hS hh hSh
    have hlast : get_last_reviewed_sha runs = some S := by
      simp only [get_last_reviewed_sha, hfind, hsha]
      rw [if_neg hS]
    simp only [decideScope, hlast]
    rw [if_pos (⟨trivial, hh⟩ : True ∧ h ≠ ""), if_pos hSh]
  · intro runs h hnone
    simp only [decideScope, hnone]
    rw [ite_self]
  · intro act hs runs hact
    have hns : (act = "synchronize") = False := by
      rcases hact with rfl | rfl <;> exact eq_false (by decide)
    cases hs with
    | none => simp only [decideScope]
    | some h => simp only [decideScope, hns, false_and, if_false]

theorem scope_decision_correct_witness :
    (sampleRuns.find? (fun r => r.status = "success")
        = some { status := "success", commit_sha := some "abc123" } ∧
      ("abc123" : String) ≠ "" ∧ ("def456" : String) ≠ "" ∧
      ("abc123" : String) ≠ "def456") ∧
    decideScope "synchronize" (some "def456") sampleRuns
      = ("incremental", DiffRequest.commitDiff "abc123" "def456") ∧
    decideScope "opened" (some "def456") sampleRuns = ("full", DiffRequest.prDiff) :=
  ⟨⟨by decide, by decide, by decide, by decide⟩,
    scope_decision_correct.1 sampleRuns
      { status := "success", commit_sha := some "abc123" } "abc123" "def456"
      (by decide) rfl (by decide) (by decide) (by decide),
    scope_decision_correct.2.2 "opened" (some "def456") sampleRuns (Or.inl rfl)⟩

/-! ### C9: configuration set boundary -/

/-- C9 counterexample: an update whose only field is max_issues = 0 is
accepted and written to the store, although the claim requires any update
with max_issues below 1 to be rejected without a write. -/
theorem set_config_accepts_zero_max_issues :
    set_config zeroMaxBody = Except.ok zeroMaxBody ∧
    zeroMaxBody.max_issues = some 0 ∧ (0 : Int) < 1 := by
  refine ⟨rfl, rfl, by decide⟩

/-- C9 (amended): the set boundary rejects, with a descriptive error and
before any store write, an update whose agents are not all in the valid
channel set, and an update whose min_severity is outside low/medium/high
(when the agents check passes); every other nonempty update is accepted
and written as-is — in particular max_issues is not validated, so values
below 1 pass through. -/
theorem set_config_validation (body : RepoConfigUpdate) :
    ((∃ ags, body.agents = some ags ∧ ¬ (ags.all (· ∈ validAgents) = true)) →
      set_config body = Except.error "Invalid agents") ∧
    ((∀ ags, body.agents = some ags → ags.all (· ∈ validAgents) = true) →
      (∃ s, body.min_severity = some s ∧ ¬ (s = "low" ∨ s = "medium" ∨ s = "high")) →
      set_config body = Except.error "min_severity must be low, medium, or high") ∧
    (¬ (body.max_issues = none ∧ body.agents = none ∧ body.min_severity = none ∧
        body.ignore_patterns = none) →
      (∀ ags, body.agents = some ags → ags.all (· ∈ validAgents) = true) →
      (∀ s, body.min_severity = some s → (s = "low" ∨ s = "medium" ∨ s = "high")) →
      set_config body = Except.ok body) := by
  refine ⟨?_, ?_, ?_⟩
  · rintro ⟨ags, hags, hbad⟩
    have hne : ¬ (body.max_issues = none ∧ body.agents = none ∧
        body.min_severity = none ∧ body.ignore_patterns = none) := by
      rintro ⟨_, h2, _, _⟩
      rw [hags] at h2
      exact Option.some_ne_none ags h2
    unfold set_config
    rw [if_neg hne]
    simp only [hags]
    rw [if_pos hbad]
  · intro hgood hsev
    obtain ⟨s, hs, hbads⟩ := hsev
    have hne : ¬ (body.max_issues = none ∧ body.agents = none ∧
        body.min_severity = none ∧ body.ignore_patterns = none) := by
      rintro ⟨_, _, h3, _⟩
      rw [hs] at h3
      exact Option.some_ne_none s h3
    unfold set_config
    rw [if_neg hne]
    cases hags : body.agents with
    | none =>
        simp only [hs]
        rw [if_pos hbads]
    | some ags =>
        simp only [hs]
        rw [if_neg (fun hcon => hcon (hgood ags hags)), if_pos hbads]
  · intro hne hgood hsev
    unfold set_config
    rw [if_neg hne]
    cases hags : body.agents with
    | none =>
        cases hsevq : body.min_severity with
        | none => rfl
        | some s =>
            simp only [hsevq]
            rw [if_neg (fun hcon => hcon (hsev s hsevq))]
    | some ags =>
        simp only [hags]
        rw [if_neg (fun hcon => hcon (hgood ags hags))]
        cases hsevq : body.min_severity with
        | none => rfl
        | some s =>
            simp only [hsevq]
            rw [if_neg (fun hcon => hcon (hsev s hsevq))]

theorem set_config_validation_witness :
    (∃ ags, badAgentsBody.agents = some ags ∧ ¬ (ags.all (· ∈ validAgents) = true)) ∧
    set_config badAgentsBody = Except.error "Invalid agents" :=
  ⟨⟨["security", "linting"], rfl, by decide⟩,
    (set_config_validation badAgentsBody).1 ⟨["security", "linting"], rfl, by decide⟩⟩

/-! ### C1: the router has no enabled-channel gate -/

/-- C1: evaluation at the failing input of the enabled-channel claim: for a
single Python work unit, plan_agents routes the unit to all four channels
unconditionally — it accepts no enabled-channel set at all, so a channel
outside any caller-supplied enabled set (for example tests when only
security is enabled) still receives the unit.  The one caller,
review_diff, passes active_agents=cfg.get("agents"), a keyword plan_agents
does not accept, which raises TypeError at run time. -/
theorem plan_agents_ignores_enabled_channels :
    plan_agents [pyChunk]
      = { security := [pyChunk], code_quality := [pyChunk],
          performance := [pyChunk], tests := [pyChunk] } ∧
    "tests" ∉ (["security"] : List String) ∧
    (plan_agents [pyChunk]).tests ≠ [] := by
  refine ⟨by decide, by decide, by decide⟩

theorem chunk_size_bound_witness :
    ((⟨"a.py:0".data, "a.py".data,
        "diff --git a/a.py b/a.py\n@@ -1 +1 @@\n-x\n+y\n".data,
        "diff --git a/a.py b/a.py\n@@ -1 +1 @@\n-x\n+y\n".data.length⟩ : Chunk)
        ∈ chunk_diff sampleDiff) ∧
    ((⟨"a.py:0".data, "a.py".data,
        "diff --git a/a.py b/a.py\n@@ -1 +1 @@\n-x\n+y\n".data,
        "diff --git a/a.py b/a.py\n@@ -1 +1 @@\n-x\n+y\n".data.length⟩ : Chunk).size
          ≤ MAX_CHUNK_CHARS ∨
      ∃ p ∈ _split_diff_by_file sampleDiff,
        (⟨"a.py:0".data, "a.py".data,
          "diff --git a/a.py b/a.py\n@@ -1 +1 @@\n-x\n+y\n".data,
          "diff --git a/a.py b/a.py\n@@ -1 +1 @@\n-x\n+y\n".data.length⟩ : Chunk).file
            = p.1 ∧
        headerAtMostOneHunkForm p.2
          (⟨"a.py:0".data, "a.py".data,
            "diff --git a/a.py b/a.py\n@@ -1 +1 @@\n-x\n+y\n".data,
            "diff --git a/a.py b/a.py\n@@ -1 +1 @@\n-x\n+y\n".data.length⟩ : Chunk).content) :=
  ⟨by decide, chunk_size_bound sampleDiff _ (by decide)⟩

theorem chunk_partition_witness :
    ((⟨"a.py:0".data, "a.py".data,
        "diff --git a/a.py b/a.py\n@@ -1 +1 @@\n-x\n+y\n".data,
        "diff --git a/a.py b/a.py\n@@ -1 +1 @@\n-x\n+y\n".data.length⟩ : Chunk)
        ∈ chunk_diff sampleDiff) ∧
    _should_skip_file
      (⟨"a.py:0".data, "a.py".data,
        "diff --git a/a.py b/a.py\n@@ -1 +1 @@\n-x\n+y\n".data,
        "diff --git a/a.py b/a.py\n@@ -1 +1 @@\n-x\n+y\n".data.length⟩ : Chunk).file
      = false :=
  ⟨by decide, (chunk_partition sampleDiff).1 _ (by decide)⟩
